import Mathlib

/-!
# Verification of `chacha20_rng` (src/chacha20_rng/src/main.rs)

Shallow embedding of the bit-stream generator. The program drives a ChaCha20
keystream in `num_bytes`-sized chunks, packs each chunk big-endian into a
`u64`, masks it to `bits_per_value` low bits when the byte count was rounded
up, expands it to individual bits (`int_to_bits`) and accumulates bits until
`n_bits` are produced.

Modelling decisions:
* The ChaCha20 cipher is an external crate (`chacha20`), not code of this
  repository; it is abstracted as the keystream byte sequence
  `ks : Nat → Nat` (byte index to byte value). Bytes are taken mod 256,
  mirroring their `u8` type.  `cipher.apply_keystream(&mut buffer)` XORs the
  next `num_bytes` keystream bytes into the buffer in place, and the buffer
  persists across loop iterations, which `next_buf` reproduces.
* Machine integers are `Nat` with explicit `% 2 ^ 64` where `u64` wrapping
  matters.  Shifts of a `u64` by an amount ≥ 64 are arithmetic-overflow
  panics in the build the program documents (a process-level crash for
  `bits_per_value > 64`); `shlU64` / `shrU64` return `none` there, and
  `none` propagates to the `RunResult.panicked` outcome.
* The `while output.len() < n_bits` loop of `chacha20_bit_stream` has no
  bound in the source; the embedding adds an explicit iteration budget
  `fuel`.  `RunResult.spin` means the budget was exhausted with the loop
  still running; lemmas below show the budget is irrelevant whenever the
  source loop terminates.
* The second component of the result models only what is statable about the
  measured wall-clock time: `Elapsed.literalZero` is the literal `0.0`
  returned on the `n_bits == 0` short-circuit, `Elapsed.measured` is the
  `Instant`-based measurement on every other path.
-/

/-- Outcome of running the (fuel-bounded) generation loop:
normal return, arithmetic-overflow panic, or fuel exhausted while the
source loop would still be running. -/
inductive RunResult where
  | done (bits : List Nat) : RunResult
  | panicked : RunResult
  | spin : RunResult
deriving DecidableEq

/-- The `f64` second component of the result, reduced to what is statable:
the literal `0.0` of the `n_bits == 0` short-circuit versus a genuine
`Instant::now()` measurement. -/
inductive Elapsed where
  | literalZero : Elapsed
  | measured : Elapsed
deriving DecidableEq

/-- Right shift `value >> s` on `u64`: panic (`none`) when `s ≥ 64`. -/
def shrU64 (v s : Nat) : Option Nat :=
  if s < 64 then some (v >>> s) else none

/-- Left shift `value << s` on `u64`: panic (`none`) when `s ≥ 64`,
wrap-around of the value otherwise. -/
def shlU64 (v s : Nat) : Option Nat :=
  if s < 64 then some ((v <<< s) % 2 ^ 64) else none

/-- The push loop of `int_to_bits`: for each index `i` in `idxs` push
`((value >> i) & 1) as u8`, aborting on a shift panic. -/
def push_bits (value : Nat) : List Nat → Option (List Nat)
  | [] => some []
  | i :: rest =>
      Option.bind (shrU64 value i) (fun v =>
        Option.map (fun bs => (v &&& 1) :: bs) (push_bits value rest))

/-- The function `int_to_bits(value, bits, msb_first)` from the source:
empty for `bits == 0`; otherwise the loop indices are `(0..bits).rev()`
when `msb_first` and `0..bits` when not. -/
def int_to_bits (value bits : Nat) (msb_first : Bool) : Option (List Nat) :=
  if bits = 0 then some []
  else if msb_first then push_bits value (List.range bits).reverse
  else push_bits value (List.range bits)

/-- Total counterpart of `int_to_bits` on the panic-free domain
(`bits ≤ 64`). -/
def int_to_bits_total (value bits : Nat) (msb_first : Bool) : List Nat :=
  if msb_first then List.map (fun i => (value >>> i) &&& 1) (List.range bits).reverse
  else List.map (fun i => (value >>> i) &&& 1) (List.range bits)

/-- The fresh keystream bytes consumed by one `apply_keystream` call:
positions `pos, pos+1, …, pos+num_bytes-1`, each a `u8`. -/
def fresh_bytes (ks : Nat → Nat) (pos num_bytes : Nat) : List Nat :=
  List.map (fun i => ks (pos + i) % 256) (List.range num_bytes)

/-- The effect of `cipher.apply_keystream(&mut buffer)`: XOR the next
keystream bytes into the buffer in place. -/
def next_buf (ks : Nat → Nat) (pos num_bytes : Nat) (buf : List Nat) : List Nat :=
  List.zipWith (fun b k => b ^^^ k) buf (fresh_bytes ks pos num_bytes)

/-- The packing loop: `val = (val << 8) | (*byte as u64)` over the buffer,
big-endian.  `<< 8` never shifts by ≥ 64, so it wraps (no panic). -/
def packBE (buf : List Nat) : Nat :=
  List.foldl (fun val byte => ((val <<< 8) % 2 ^ 64) ||| byte % 256) 0 buf

/-- The masking step: when `bpv < num_bytes * 8` the source computes
`val & ((1u64 << bpv) - 1)`, whose shift panics for `bpv ≥ 64`. -/
def mask_value (bpv num_bytes val : Nat) : Option Nat :=
  if bpv < num_bytes * 8 then
    Option.map (fun m => val &&& (m - 1)) (shlU64 1 bpv)
  else some val

/-- Total counterpart of `mask_value` on the panic-free domain. -/
def mask_total (bpv num_bytes val : Nat) : Nat :=
  if bpv < num_bytes * 8 then val &&& (2 ^ bpv - 1) else val

/-- One loop iteration's value pipeline: pack the refreshed buffer, mask,
expand to bits. -/
def chunk_step (bpv num_bytes : Nat) (msb : Bool) (buf : List Nat) : Option (List Nat) :=
  Option.bind (mask_value bpv num_bytes (packBE buf)) (fun val => int_to_bits val bpv msb)

/-- Total counterpart of `chunk_step` on the panic-free domain. -/
def chunk_total (bpv num_bytes : Nat) (msb : Bool) (buf : List Nat) : List Nat :=
  int_to_bits_total (mask_total bpv num_bytes (packBE buf)) bpv msb

/-- The ideal (untruncated) concatenation of the first `c` chunk
expansions, starting from keystream position `pos` and buffer `buf`. -/
def chunk_stream (ks : Nat → Nat) (bpv num_bytes : Nat) (msb : Bool) :
    Nat → Nat → List Nat → List Nat
  | 0, _, _ => []
  | c + 1, pos, buf =>
      chunk_total bpv num_bytes msb (next_buf ks pos num_bytes buf) ++
        chunk_stream ks bpv num_bytes msb c (pos + num_bytes) (next_buf ks pos num_bytes buf)

/-- The `while output.len() < n_bits` loop, with an explicit iteration
budget `fuel`.  Mirrors the source: refresh the buffer, pack, mask, expand,
then append the whole expansion or its first `remaining` bits. -/
def gen_loop (ks : Nat → Nat) (bpv num_bytes : Nat) (msb : Bool) (n_bits : Nat) :
    Nat → Nat → List Nat → List Nat → RunResult
  | 0, _, _, output =>
      if n_bits ≤ output.length then RunResult.done output else RunResult.spin
  | fuel + 1, pos, buf, output =>
      if n_bits ≤ output.length then RunResult.done output
      else
        match chunk_step bpv num_bytes msb (next_buf ks pos num_bytes buf) with
        | none => RunResult.panicked
        | some bits =>
            if bits.length ≤ n_bits - output.length then
              gen_loop ks bpv num_bytes msb n_bits fuel (pos + num_bytes)
                (next_buf ks pos num_bytes buf) (output ++ bits)
            else
              gen_loop ks bpv num_bytes msb n_bits fuel (pos + num_bytes)
                (next_buf ks pos num_bytes buf)
                (output ++ List.take (n_bits - output.length) bits)

/-- The function `chacha20_bit_stream(n_bits, bits_per_value, msb_first)`.
Here `ks` is the ChaCha20 keystream (fixed zero key/nonce in the source)
and `fuel` the iteration budget of the embedding.  `n_bits == 0` returns
`(Vec::new(), 0.0)` before any measurement; otherwise
`bpv = bits_per_value.unwrap_or(32)`, `num_bytes = (bpv + 7) / 8`, the
buffer starts as `num_bytes` zero bytes and the loop runs. -/
def chacha20_bit_stream (ks : Nat → Nat) (fuel n_bits : Nat)
    (bits_per_value : Option Nat) (msb_first : Bool) : RunResult × Elapsed :=
  if n_bits = 0 then (RunResult.done [], Elapsed.literalZero)
  else
    (gen_loop ks (bits_per_value.getD 32) ((bits_per_value.getD 32 + 7) / 8) msb_first
      n_bits fuel 0 (List.replicate ((bits_per_value.getD 32 + 7) / 8) 0) [],
      Elapsed.measured)

/-- Lowercasing as performed by Rust's `str::to_lowercase`, modelled as a
per-character lowering of the string's characters (the comparison target
`"false"` is pure ASCII, where the two coincide). -/
def to_lowercase (s : String) : String :=
  String.mk (List.map Char.toLower s.data)

/-- Resolution of the third positional argument of `main`:
`args[3].to_lowercase() != "false"` when present, the default `true` when
absent (`arg` is `args.get(3)`). -/
def parse_msb_first (arg : Option String) : Bool :=
  match arg with
  | some s => to_lowercase s != "false"
  | none => true

/-- The all-zero keystream, used to instantiate witnesses. -/
def ks0 : Nat → Nat := fun _ => 0

theorem push_bits_eq_map (value : Nat) (idxs : List Nat) (h : ∀ i ∈ idxs, i < 64) :
    push_bits value idxs = some (List.map (fun i => (value >>> i) &&& 1) idxs) := by
  induction idxs with
  | nil => rfl
  | cons a rest ih =>
      have ha : a < 64 := h a (List.mem_cons_self a rest)
      have hr := ih (fun i hi => h i (List.mem_cons_of_mem a hi))
      simp [push_bits, shrU64, ha, hr]

theorem push_bits_eq_none (value : Nat) (idxs : List Nat) (i : Nat)
    (hi : i ∈ idxs) (h64 : 64 ≤ i) : push_bits value idxs = none := by
  induction idxs with
  | nil => cases hi
  | cons a rest ih =>
      rcases List.mem_cons.mp hi with rfl | hmem
      · simp [push_bits, shrU64, Nat.not_lt.mpr h64]
      · cases ha : shrU64 value a
        · simp [push_bits, ha]
        · simp [push_bits, ha, ih hmem]

theorem int_to_bits_eq_total (v bits : Nat) (msb : Bool) (h : bits ≤ 64) :
    int_to_bits v bits msb = some (int_to_bits_total v bits msb) := by
  by_cases h0 : bits = 0
  · subst h0; cases msb <;> simp [int_to_bits, int_to_bits_total]
  · have hmem : ∀ i ∈ List.range bits, i < 64 := fun i hi =>
      Nat.lt_of_lt_of_le (List.mem_range.mp hi) h
    cases msb
    · simp [int_to_bits, int_to_bits_total, h0, push_bits_eq_map v _ hmem]
    · have hmem' : ∀ i ∈ (List.range bits).reverse, i < 64 := fun i hi =>
        hmem i (List.mem_reverse.mp hi)
      simp [int_to_bits, int_to_bits_total, h0, push_bits_eq_map v _ hmem']

theorem int_to_bits_eq_none (v bits : Nat) (msb : Bool) (h : 64 < bits) :
    int_to_bits v bits msb = none := by
  have h0 : bits ≠ 0 := by omega
  have hmem : (64 : Nat) ∈ List.range bits := List.mem_range.mpr h
  cases msb
  · simp [int_to_bits, h0, push_bits_eq_none v _ 64 hmem (Nat.le_refl 64)]
  · simp [int_to_bits, h0,
      push_bits_eq_none v _ 64 (List.mem_reverse.mpr hmem) (Nat.le_refl 64)]

theorem int_to_bits_total_length (v bits : Nat) (msb : Bool) :
    (int_to_bits_total v bits msb).length = bits := by
  cases msb <;> simp [int_to_bits_total]

theorem int_to_bits_total_getD (v bits : Nat) (msb : Bool) (j : Nat) (hj : j < bits) :
    (int_to_bits_total v bits msb).getD j 0 =
      (if msb then v >>> (bits - 1 - j) &&& 1 else v >>> j &&& 1) := by
  have h1 : j < (((List.range bits).reverse).map fun i => v >>> i &&& 1).length := by simp [hj]
  have h2 : j < ((List.range bits).map fun i => v >>> i &&& 1).length := by simp [hj]
  cases msb
  · simp only [int_to_bits_total, Bool.false_eq_true, if_false]
    rw [List.getD_eq_getElem?_getD, List.getElem?_eq_getElem h2]
    simp
  · simp only [int_to_bits_total, if_true]
    rw [List.getD_eq_getElem?_getD, List.getElem?_eq_getElem h1]
    simp

theorem shlU64_one (bpv : Nat) (h : bpv < 64) : shlU64 1 bpv = some (2 ^ bpv) := by
  have hlt : 2 ^ bpv < 2 ^ 64 := Nat.pow_lt_pow_right (by norm_num) h
  rw [shlU64, if_pos h, Nat.shiftLeft_eq, one_mul, Nat.mod_eq_of_lt hlt]

theorem mask_value_eq_total (bpv nb val : Nat) (h64 : bpv ≤ 64) (hnb : nb = (bpv + 7) / 8) :
    mask_value bpv nb val = some (mask_total bpv nb val) := by
  by_cases hlt : bpv < nb * 8
  · have hb : bpv < 64 := by subst hnb; omega
    simp [mask_value, mask_total, hlt, shlU64_one bpv hb]
  · simp [mask_value, mask_total, hlt]

theorem mask_value_eq_none (bpv nb val : Nat) (h64 : 64 < bpv) (hlt : bpv < nb * 8) :
    mask_value bpv nb val = none := by
  simp [mask_value, hlt, shlU64, Nat.not_lt.mpr (by omega : (64 : Nat) ≤ bpv)]

theorem chunk_step_eq_total (bpv nb : Nat) (msb : Bool) (buf : List Nat)
    (h64 : bpv ≤ 64) (hnb : nb = (bpv + 7) / 8) :
    chunk_step bpv nb msb buf = some (chunk_total bpv nb msb buf) := by
  simp [chunk_step, chunk_total, mask_value_eq_total bpv nb _ h64 hnb,
    int_to_bits_eq_total _ bpv msb h64]

theorem chunk_step_eq_none (bpv nb : Nat) (msb : Bool) (buf : List Nat)
    (h64 : 64 < bpv) (hnb : nb = (bpv + 7) / 8) :
    chunk_step bpv nb msb buf = none := by
  by_cases hlt : bpv < nb * 8
  · simp [chunk_step, mask_value_eq_none bpv nb _ h64 hlt]
  · have hle : bpv ≤ nb * 8 := by subst hnb; omega
    simp [chunk_step, mask_value, hlt, int_to_bits_eq_none _ bpv msb h64]

theorem chunk_total_length (bpv nb : Nat) (msb : Bool) (buf : List Nat) :
    (chunk_total bpv nb msb buf).length = bpv := by
  simp [chunk_total, int_to_bits_total_length]

theorem chunk_stream_length (ks : Nat → Nat) (bpv nb : Nat) (msb : Bool) (c : Nat) :
    ∀ pos buf, (chunk_stream ks bpv nb msb c pos buf).length = c * bpv := by
  induction c with
  | zero => intro pos buf; simp [chunk_stream]
  | succ c ih =>
      intro pos buf
      simp only [chunk_stream, List.length_append, chunk_total_length, ih, Nat.succ_mul]
      omega

theorem chunk_stream_prefix (ks : Nat → Nat) (bpv nb : Nat) (msb : Bool) (c₁ : Nat) :
    ∀ c₂ pos buf, c₁ ≤ c₂ →
      chunk_stream ks bpv nb msb c₁ pos buf <+: chunk_stream ks bpv nb msb c₂ pos buf := by
  induction c₁ with
  | zero => intro c₂ pos buf h; exact List.nil_prefix
  | succ c ih =>
      intro c₂ pos buf h
      obtain ⟨c₂', rfl⟩ : ∃ c₂', c₂ = c₂' + 1 := ⟨c₂ - 1, by omega⟩
      obtain ⟨t, ht⟩ := ih c₂' (pos + nb) (next_buf ks pos nb buf) (by omega)
      exact ⟨t, by simp only [chunk_stream, List.append_assoc, ht]⟩

theorem take_append_of_le {α : Type} (r : Nat) (l₁ l₂ : List α) (h : l₁.length ≤ r) :
    List.take r (l₁ ++ l₂) = l₁ ++ List.take (r - l₁.length) l₂ := by
  rw [List.take_append_eq_append_take, List.take_of_length_le h]

theorem take_append_of_ge {α : Type} (r : Nat) (l₁ l₂ : List α) (h : r ≤ l₁.length) :
    List.take r (l₁ ++ l₂) = List.take r l₁ := by
  rw [List.take_append_eq_append_take, Nat.sub_eq_zero_of_le h]
  simp

theorem prefix_take_eq {α : Type} (l₁ l₂ : List α) (n : Nat) (h : l₁ <+: l₂)
    (hn : n ≤ l₁.length) : List.take n l₁ = List.take n l₂ := by
  obtain ⟨t, rfl⟩ := h
  exact (take_append_of_ge n l₁ t hn).symm

theorem gen_loop_succ_some (ks : Nat → Nat) (bpv nb : Nat) (msb : Bool)
    (n_bits fuel pos : Nat) (buf out bits : List Nat)
    (hdone : ¬ n_bits ≤ out.length)
    (hstep : chunk_step bpv nb msb (next_buf ks pos nb buf) = some bits) :
    gen_loop ks bpv nb msb n_bits (fuel + 1) pos buf out =
      (if bits.length ≤ n_bits - out.length then
        gen_loop ks bpv nb msb n_bits fuel (pos + nb) (next_buf ks pos nb buf) (out ++ bits)
      else
        gen_loop ks bpv nb msb n_bits fuel (pos + nb) (next_buf ks pos nb buf)
          (out ++ List.take (n_bits - out.length) bits)) := by
  rw [show gen_loop ks bpv nb msb n_bits (fuel + 1) pos buf out =
      (if n_bits ≤ out.length then RunResult.done out
      else
        match chunk_step bpv nb msb (next_buf ks pos nb buf) with
        | none => RunResult.panicked
        | some bits =>
            if bits.length ≤ n_bits - out.length then
              gen_loop ks bpv nb msb n_bits fuel (pos + nb)
                (next_buf ks pos nb buf) (out ++ bits)
            else
              gen_loop ks bpv nb msb n_bits fuel (pos + nb)
                (next_buf ks pos nb buf)
                (out ++ List.take (n_bits - out.length) bits)) from rfl,
    if_neg hdone, hstep]

theorem gen_loop_succ_none (ks : Nat → Nat) (bpv nb : Nat) (msb : Bool)
    (n_bits fuel pos : Nat) (buf out : List Nat)
    (hdone : ¬ n_bits ≤ out.length)
    (hstep : chunk_step bpv nb msb (next_buf ks pos nb buf) = none) :
    gen_loop ks bpv nb msb n_bits (fuel + 1) pos buf out = RunResult.panicked := by
  rw [show gen_loop ks bpv nb msb n_bits (fuel + 1) pos buf out =
      (if n_bits ≤ out.length then RunResult.done out
      else
        match chunk_step bpv nb msb (next_buf ks pos nb buf) with
        | none => RunResult.panicked
        | some bits =>
            if bits.length ≤ n_bits - out.length then
              gen_loop ks bpv nb msb n_bits fuel (pos + nb)
                (next_buf ks pos nb buf) (out ++ bits)
            else
              gen_loop ks bpv nb msb n_bits fuel (pos + nb)
                (next_buf ks pos nb buf)
                (out ++ List.take (n_bits - out.length) bits)) from rfl,
    if_neg hdone, hstep]

theorem gen_loop_done_of_fuel (ks : Nat → Nat) (bpv nb : Nat) (msb : Bool) (n_bits : Nat)
    (h1 : 1 ≤ bpv) (h64 : bpv ≤ 64) (hnb : nb = (bpv + 7) / 8) (fuel : Nat) :
    ∀ pos buf out, n_bits - out.length ≤ fuel →
      gen_loop ks bpv nb msb n_bits fuel pos buf out =
        RunResult.done
          (out ++ List.take (n_bits - out.length) (chunk_stream ks bpv nb msb fuel pos buf)) := by
  induction fuel with
  | zero =>
      intro pos buf out hf
      have hdone : n_bits ≤ out.length := by omega
      simp [gen_loop, hdone, Nat.sub_eq_zero_of_le hdone]
  | succ fuel ih =>
      intro pos buf out hf
      by_cases hdone : n_bits ≤ out.length
      · simp [gen_loop, hdone, Nat.sub_eq_zero_of_le hdone, chunk_stream]
      · have hlt : out.length < n_bits := by omega
        have hstep := chunk_step_eq_total bpv nb msb (next_buf ks pos nb buf) h64 hnb
        have hblen := chunk_total_length bpv nb msb (next_buf ks pos nb buf)
        rw [gen_loop_succ_some ks bpv nb msb n_bits fuel pos buf out _ hdone hstep]
        by_cases hfit : (chunk_total bpv nb msb (next_buf ks pos nb buf)).length ≤
            n_bits - out.length
        · rw [if_pos hfit,
            ih (pos + nb) (next_buf ks pos nb buf)
              (out ++ chunk_total bpv nb msb (next_buf ks pos nb buf))
              (by simp only [List.length_append, hblen]; omega)]
          rw [show chunk_stream ks bpv nb msb (fuel + 1) pos buf =
              chunk_total bpv nb msb (next_buf ks pos nb buf) ++
                chunk_stream ks bpv nb msb fuel (pos + nb) (next_buf ks pos nb buf) from rfl]
          rw [take_append_of_le _ _ _ hfit]
          simp only [List.append_assoc, List.length_append, hblen]
          rw [show n_bits - out.length - bpv = n_bits - (out.length + bpv) by omega]
        · rw [if_neg hfit]
          have hrem : n_bits - out.length ≤
              (chunk_total bpv nb msb (next_buf ks pos nb buf)).length := by omega
          have hlen2 : (out ++ List.take (n_bits - out.length)
              (chunk_total bpv nb msb (next_buf ks pos nb buf))).length = n_bits := by
            simp only [List.length_append, List.length_take, hblen]
            omega
          rw [ih (pos + nb) (next_buf ks pos nb buf) _ (by rw [hlen2]; omega)]
          rw [hlen2, Nat.sub_self, List.take_zero, List.append_nil]
          rw [show chunk_stream ks bpv nb msb (fuel + 1) pos buf =
              chunk_total bpv nb msb (next_buf ks pos nb buf) ++
                chunk_stream ks bpv nb msb fuel (pos + nb) (next_buf ks pos nb buf) from rfl]
          rw [take_append_of_ge _ _ _ hrem]

theorem gen_loop_done_eq (ks : Nat → Nat) (bpv nb : Nat) (msb : Bool) (n_bits : Nat)
    (h64 : bpv ≤ 64) (hnb : nb = (bpv + 7) / 8) (fuel : Nat) :
    ∀ pos buf out l,
      gen_loop ks bpv nb msb n_bits fuel pos buf out = RunResult.done l →
      l = out ++ List.take (n_bits - out.length) (chunk_stream ks bpv nb msb fuel pos buf) ∧
        n_bits ≤ l.length := by
  induction fuel with
  | zero =>
      intro pos buf out l h
      by_cases hdone : n_bits ≤ out.length
      · simp only [gen_loop, if_pos hdone, RunResult.done.injEq] at h
        subst h
        simp [chunk_stream, Nat.sub_eq_zero_of_le hdone, hdone]
      · simp only [gen_loop, if_neg hdone] at h
        cases h
  | succ fuel ih =>
      intro pos buf out l h
      by_cases hdone : n_bits ≤ out.length
      · rw [show gen_loop ks bpv nb msb n_bits (fuel + 1) pos buf out =
            RunResult.done out from by
              rw [show gen_loop ks bpv nb msb n_bits (fuel + 1) pos buf out =
                  (if n_bits ≤ out.length then RunResult.done out
                  else
                    match chunk_step bpv nb msb (next_buf ks pos nb buf) with
                    | none => RunResult.panicked
                    | some bits =>
                        if bits.length ≤ n_bits - out.length then
                          gen_loop ks bpv nb msb n_bits fuel (pos + nb)
                            (next_buf ks pos nb buf) (out ++ bits)
                        else
                          gen_loop ks bpv nb msb n_bits fuel (pos + nb)
                            (next_buf ks pos nb buf)
                            (out ++ List.take (n_bits - out.length) bits)) from rfl,
                if_pos hdone]] at h
        cases h
        refine ⟨?_, hdone⟩
        simp [Nat.sub_eq_zero_of_le hdone]
      · have hstep := chunk_step_eq_total bpv nb msb (next_buf ks pos nb buf) h64 hnb
        have hblen := chunk_total_length bpv nb msb (next_buf ks pos nb buf)
        rw [gen_loop_succ_some ks bpv nb msb n_bits fuel pos buf out _ hdone hstep] at h
        by_cases hfit : (chunk_total bpv nb msb (next_buf ks pos nb buf)).length ≤
            n_bits - out.length
        · rw [if_pos hfit] at h
          obtain ⟨he, hlen⟩ := ih (pos + nb) (next_buf ks pos nb buf)
            (out ++ chunk_total bpv nb msb (next_buf ks pos nb buf)) l h
          refine ⟨?_, hlen⟩
          rw [he]
          rw [show chunk_stream ks bpv nb msb (fuel + 1) pos buf =
              chunk_total bpv nb msb (next_buf ks pos nb buf) ++
                chunk_stream ks bpv nb msb fuel (pos + nb) (next_buf ks pos nb buf) from rfl]
          rw [take_append_of_le _ _ _ hfit]
          simp only [List.append_assoc, List.length_append, hblen]
          rw [show n_bits - out.length - bpv = n_bits - (out.length + bpv) by omega]
        · rw [if_neg hfit] at h
          have hrem : n_bits - out.length ≤
              (chunk_total bpv nb msb (next_buf ks pos nb buf)).length := by omega
          have hlen2 : (out ++ List.take (n_bits - out.length)
              (chunk_total bpv nb msb (next_buf ks pos nb buf))).length = n_bits := by
            simp only [List.length_append, List.length_take, hblen]
            omega
          obtain ⟨he, hlen⟩ := ih (pos + nb) (next_buf ks pos nb buf) _ l h
          refine ⟨?_, hlen⟩
          rw [he, hlen2, Nat.sub_self, List.take_zero, List.append_nil]
          rw [show chunk_stream ks bpv nb msb (fuel + 1) pos buf =
              chunk_total bpv nb msb (next_buf ks pos nb buf) ++
                chunk_stream ks bpv nb msb fuel (pos + nb) (next_buf ks pos nb buf) from rfl]
          rw [take_append_of_ge _ _ _ hrem]

theorem gen_loop_spin_bpv_zero (ks : Nat → Nat) (msb : Bool) (n_bits : Nat) (fuel : Nat) :
    ∀ pos buf out, out.length < n_bits →
      gen_loop ks 0 0 msb n_bits fuel pos buf out = RunResult.spin := by
  induction fuel with
  | zero =>
      intro pos buf out h
      simp [gen_loop, Nat.not_le.mpr h]
  | succ fuel ih =>
      intro pos buf out h
      have hstep : chunk_step 0 0 msb (next_buf ks pos 0 buf) = some [] := by
        simp [chunk_step, mask_value, int_to_bits]
      rw [gen_loop_succ_some ks 0 0 msb n_bits fuel pos buf out [] (Nat.not_le.mpr h) hstep]
      rw [if_pos (by simp)]
      rw [List.append_nil]
      exact ih (pos + 0) (next_buf ks pos 0 buf) out h

theorem gen_loop_panicked (ks : Nat → Nat) (bpv nb : Nat) (msb : Bool) (n_bits : Nat)
    (h64 : 64 < bpv) (hnb : nb = (bpv + 7) / 8) (fuel pos : Nat) (buf out : List Nat)
    (hout : out.length < n_bits) (hfuel : 1 ≤ fuel) :
    gen_loop ks bpv nb msb n_bits fuel pos buf out = RunResult.panicked := by
  obtain ⟨fuel', rfl⟩ : ∃ f, fuel = f + 1 := ⟨fuel - 1, by omega⟩
  exact gen_loop_succ_none ks bpv nb msb n_bits fuel' pos buf out (Nat.not_le.mpr hout)
    (chunk_step_eq_none bpv nb msb _ h64 hnb)

/-- C4 (amended): for `bits == 0` the expansion is unconditionally empty;
for `1 ≤ bits ≤ 64` the function `int_to_bits` produces exactly `bits`
bits, output index `j` being bit `bits-1-j` of `value` when `msbFirst` and
bit `j` of `value` otherwise.  (The amendment adds the bound `bits ≤ 64`:
for `bits > 64` the source's `value >> i` shift panics, see the
counterexample.) -/
theorem int_to_bits_index_spec (v bits : Nat) (msb : Bool) :
    int_to_bits v 0 msb = some [] ∧
    (1 ≤ bits → bits ≤ 64 →
      ∃ l, int_to_bits v bits msb = some l ∧ l.length = bits ∧
        ∀ j, j < bits → l.getD j 0 =
          (if msb then v >>> (bits - 1 - j) &&& 1 else v >>> j &&& 1)) := by
  refine ⟨rfl, fun h1 h64 => ?_⟩
  exact ⟨int_to_bits_total v bits msb, int_to_bits_eq_total v bits msb h64,
    int_to_bits_total_length v bits msb, fun j hj => int_to_bits_total_getD v bits msb j hj⟩

/-- Witness for C4's theorem at `value = 165 = 0b10100101`, `bits = 8`,
MSB-first. -/
theorem int_to_bits_index_spec_witness :
    (1 : Nat) ≤ 8 ∧ (8 : Nat) ≤ 64 ∧
      (∃ l, int_to_bits 165 8 true = some l ∧ l.length = 8 ∧
        ∀ j, j < 8 → l.getD j 0 =
          (if true then 165 >>> (8 - 1 - j) &&& 1 else 165 >>> j &&& 1)) :=
  ⟨by decide, by decide, (int_to_bits_index_spec 165 8 true).2 (by decide) (by decide)⟩

/-- Counterexample to C4 as stated: at `bits = 65` the expansion does not
produce 65 bits; the `value >> 64` shift overflows and the call panics. -/
theorem int_to_bits_over_64_cex : int_to_bits 0 65 true = none := by decide

/-- C8: for every value and width `b ≥ 1`, the MSB-first expansion is the
exact reverse of the LSB-first expansion (on the panic-free domain the two
lists are reverses; for `b > 64` both calls panic identically). -/
theorem int_to_bits_msb_reverse_of_lsb (v b : Nat) (h1 : 1 ≤ b) :
    int_to_bits v b true = Option.map List.reverse (int_to_bits v b false) := by
  by_cases h64 : b ≤ 64
  · rw [int_to_bits_eq_total v b true h64, int_to_bits_eq_total v b false h64]
    simp [int_to_bits_total]
  · rw [int_to_bits_eq_none v b true (by omega), int_to_bits_eq_none v b false (by omega)]
    rfl

/-- Witness for C8's theorem at `value = 165`, `b = 8`. -/
theorem int_to_bits_msb_reverse_of_lsb_witness :
    (1 : Nat) ≤ 8 ∧ int_to_bits 165 8 true = Option.map List.reverse (int_to_bits 165 8 false) :=
  ⟨by decide, int_to_bits_msb_reverse_of_lsb 165 8 (by decide)⟩

/-- C5: whenever the byte count was rounded up
(`bitsPerValue < numBytes * 8` with `numBytes = (bitsPerValue + 7) / 8`),
the extracted value that the masking step yields is the packed value
reduced to its low `bitsPerValue` bits, hence below `2 ^ bitsPerValue`. -/
theorem mask_value_bound (bpv : Nat) (buf : List Nat) (v : Nat)
    (hround : bpv < ((bpv + 7) / 8) * 8)
    (hv : mask_value bpv ((bpv + 7) / 8) (packBE buf) = some v) :
    v = packBE buf % 2 ^ bpv ∧ v < 2 ^ bpv := by
  by_cases hb : bpv < 64
  · rw [mask_value, if_pos hround, shlU64_one bpv hb] at hv
    simp only [Option.map_some', Option.some.injEq] at hv
    subst hv
    rw [Nat.and_pow_two_sub_one_eq_mod]
    exact ⟨rfl, Nat.mod_lt _ (Nat.pos_pow_of_pos bpv (by norm_num))⟩
  · rw [mask_value, if_pos hround, shlU64, if_neg hb] at hv
    cases hv

/-- Witness for C5's theorem at `bitsPerValue = 5` and the one-byte chunk
`0xA5`: the masked value is `0xA5 & 0b11111 = 5 < 32`. -/
theorem mask_value_bound_witness :
    (5 : Nat) < ((5 + 7) / 8) * 8 ∧
      mask_value 5 ((5 + 7) / 8) (packBE [165]) = some 5 ∧
      (5 = packBE [165] % 2 ^ 5 ∧ (5 : Nat) < 2 ^ 5) :=
  ⟨by decide, by decide, mask_value_bound 5 [165] 5 (by decide) (by decide)⟩

/-- C7: requesting zero bits returns the empty sequence together with the
literal `0.0`, short-circuiting the time measurement, for every keystream,
fuel, `bitsPerValue` and `msbFirst`. -/
theorem chacha20_bit_stream_zero_short_circuit (ks : Nat → Nat) (fuel : Nat)
    (bpv? : Option Nat) (msb : Bool) :
    chacha20_bit_stream ks fuel 0 bpv? msb = (RunResult.done [], Elapsed.literalZero) := rfl

/-- C9: the third positional argument yields `msbFirst = false` exactly
when its lowercasing equals the literal `"false"`; any other string yields
`true`, and an absent argument defaults to `true`. -/
theorem parse_msb_first_spec (s : String) :
    (parse_msb_first (some s) = false ↔ to_lowercase s = "false") ∧
      parse_msb_first none = true := by
  refine ⟨?_, rfl⟩
  simp [parse_msb_first]

/-- Witness for C9's theorem: `"FaLsE"` parses to `false`, absence to
`true`. -/
theorem parse_msb_first_spec_witness :
    parse_msb_first (some "FaLsE") = false ∧ parse_msb_first none = true :=
  ⟨(parse_msb_first_spec "FaLsE").1.mpr (by decide), (parse_msb_first_spec "x").2⟩

/-- C1 (amended): for every `nBits` and every `bitsPerValue` with
`1 ≤ bitsPerValue ≤ 64` (and any sufficient iteration budget), the
generator returns a bit sequence of length exactly `nBits`, empty iff
`nBits = 0`.  (The amendment restricts `bitsPerValue` to `1..64`: at
`bitsPerValue = 0` the loop never returns and at `bitsPerValue > 64` it
panics, see the counterexample.) -/
theorem chacha20_bit_stream_length_exact (ks : Nat → Nat) (fuel n_bits : Nat)
    (bpv? : Option Nat) (msb : Bool)
    (h1 : 1 ≤ bpv?.getD 32) (h64 : bpv?.getD 32 ≤ 64) (hfuel : n_bits ≤ fuel) :
    ∃ l t, chacha20_bit_stream ks fuel n_bits bpv? msb = (RunResult.done l, t) ∧
      l.length = n_bits ∧ (l = [] ↔ n_bits = 0) := by
  by_cases h0 : n_bits = 0
  · exact ⟨[], Elapsed.literalZero, by simp [chacha20_bit_stream, h0], by simp [h0], by simp [h0]⟩
  · have hrun := gen_loop_done_of_fuel ks (bpv?.getD 32) ((bpv?.getD 32 + 7) / 8) msb n_bits
      h1 h64 rfl fuel 0 (List.replicate ((bpv?.getD 32 + 7) / 8) 0) [] (by simpa using hfuel)
    have hslen := chunk_stream_length ks (bpv?.getD 32) ((bpv?.getD 32 + 7) / 8) msb fuel 0
      (List.replicate ((bpv?.getD 32 + 7) / 8) 0)
    have hnf : n_bits ≤ fuel * bpv?.getD 32 :=
      le_trans hfuel (Nat.le_mul_of_pos_right fuel h1)
    have hlen : (List.take n_bits (chunk_stream ks (bpv?.getD 32) ((bpv?.getD 32 + 7) / 8)
        msb fuel 0 (List.replicate ((bpv?.getD 32 + 7) / 8) 0))).length = n_bits := by
      rw [List.length_take, hslen]
      omega
    refine ⟨List.take n_bits (chunk_stream ks (bpv?.getD 32) ((bpv?.getD 32 + 7) / 8) msb fuel 0
        (List.replicate ((bpv?.getD 32 + 7) / 8) 0)), Elapsed.measured, ?_, ?_, ?_⟩
    · rw [chacha20_bit_stream, if_neg h0, hrun]
      simp
    · simpa using hlen
    · constructor
      · intro hnil
        rw [hnil] at hlen
        simp at hlen
        omega
      · intro hz
        exact absurd hz h0

/-- Witness for C1's theorem at `nBits = 7`, `bitsPerValue = 5`, zero
keystream. -/
theorem chacha20_bit_stream_length_exact_witness :
    (1 : Nat) ≤ (some 5 : Option Nat).getD 32 ∧ (some 5 : Option Nat).getD 32 ≤ 64 ∧
      (7 : Nat) ≤ 7 ∧
      ∃ l t, chacha20_bit_stream ks0 7 7 (some 5) false = (RunResult.done l, t) ∧
        l.length = 7 ∧ (l = [] ↔ 7 = 0) :=
  ⟨by decide, by decide, by decide,
    chacha20_bit_stream_length_exact ks0 7 7 (some 5) false (by decide) (by decide) (by decide)⟩

/-- Counterexample to C1 as stated ("regardless of bitsPerValue"): at
`bitsPerValue = 65`, `nBits = 1`, the generator panics instead of
returning a length-1 sequence. -/
theorem chacha20_bit_stream_length_cex :
    chacha20_bit_stream ks0 5 1 (some 65) true = (RunResult.panicked, Elapsed.measured) := by
  decide

/-- C2 (amended): for every `nBits` and every `bitsPerValue ≥ 1`, the
generation loop finishes within at most `nBits` iterations (an iteration
budget of exactly `nBits` is never exhausted).  (The amendment excludes
`bitsPerValue = 0`, where each iteration appends zero bits and the loop
never terminates, see the counterexample.) -/
theorem chacha20_bit_stream_terminates_within_n_bits (ks : Nat → Nat) (n_bits : Nat)
    (bpv? : Option Nat) (msb : Bool) (h1 : 1 ≤ bpv?.getD 32) :
    (chacha20_bit_stream ks n_bits n_bits bpv? msb).1 ≠ RunResult.spin := by
  by_cases h0 : n_bits = 0
  · simp [chacha20_bit_stream, h0]
  · by_cases h64 : bpv?.getD 32 ≤ 64
    · have hrun := gen_loop_done_of_fuel ks (bpv?.getD 32) ((bpv?.getD 32 + 7) / 8) msb n_bits
        h1 h64 rfl n_bits 0 (List.replicate ((bpv?.getD 32 + 7) / 8) 0) [] (by simp)
      rw [chacha20_bit_stream, if_neg h0]
      simp [hrun]
    · have hrun := gen_loop_panicked ks (bpv?.getD 32) ((bpv?.getD 32 + 7) / 8) msb n_bits
        (by omega) rfl n_bits 0 (List.replicate ((bpv?.getD 32 + 7) / 8) 0) []
        (by simp; omega) (by omega)
      rw [chacha20_bit_stream, if_neg h0]
      simp [hrun]

/-- Witness for C2's theorem at `nBits = 3`, `bitsPerValue = 2`. -/
theorem chacha20_bit_stream_terminates_witness :
    (1 : Nat) ≤ (some 2 : Option Nat).getD 32 ∧
      (chacha20_bit_stream ks0 3 3 (some 2) true).1 ≠ RunResult.spin :=
  ⟨by decide, chacha20_bit_stream_terminates_within_n_bits ks0 3 (some 2) true (by decide)⟩

/-- Counterexample to C2 as stated ("every bitsPerValue ... at most nBits
iterations, each producing at least 1 bit"): at `bitsPerValue = 0` and
`nBits = 1`, after 100 iterations (far beyond the claimed bound of 1) the
loop is still running — each iteration appends zero bits. -/
theorem chacha20_bit_stream_nonterminating_cex :
    (chacha20_bit_stream ks0 100 1 (some 0) true).1 = RunResult.spin := by decide

/-- C3: for every `bitsPerValue > 64` (with `nBits ≥ 1` and at least one
iteration of budget) the generator panics — the 64-bit accumulator cannot
carry `bitsPerValue` bits, and the first chunk's shift overflows — and for
`1 ≤ bitsPerValue ≤ 64` no panic is possible: the crash on oversized
`bitsPerValue` is the only failure path. -/
theorem chacha20_bit_stream_panic_iff_bpv_gt_64 (ks : Nat → Nat) (fuel n_bits : Nat)
    (bpv? : Option Nat) (msb : Bool) :
    (64 < bpv?.getD 32 → 1 ≤ n_bits → 1 ≤ fuel →
      (chacha20_bit_stream ks fuel n_bits bpv? msb).1 = RunResult.panicked) ∧
    (1 ≤ bpv?.getD 32 → bpv?.getD 32 ≤ 64 → n_bits ≤ fuel →
      (chacha20_bit_stream ks fuel n_bits bpv? msb).1 ≠ RunResult.panicked) := by
  constructor
  · intro h64 hn hf
    have h0 : n_bits ≠ 0 := by omega
    have hrun := gen_loop_panicked ks (bpv?.getD 32) ((bpv?.getD 32 + 7) / 8) msb n_bits
      h64 rfl fuel 0 (List.replicate ((bpv?.getD 32 + 7) / 8) 0) [] (by simp; omega) hf
    rw [chacha20_bit_stream, if_neg h0]
    simp [hrun]
  · intro h1 h64 hf
    by_cases h0 : n_bits = 0
    · simp [chacha20_bit_stream, h0]
    · have hrun := gen_loop_done_of_fuel ks (bpv?.getD 32) ((bpv?.getD 32 + 7) / 8) msb n_bits
        h1 h64 rfl fuel 0 (List.replicate ((bpv?.getD 32 + 7) / 8) 0) [] (by simpa using hf)
      rw [chacha20_bit_stream, if_neg h0]
      simp [hrun]

/-- Witness for C3's theorem: panic at `bitsPerValue = 65`, no panic at
`bitsPerValue = 8`. -/
theorem chacha20_bit_stream_panic_iff_witness :
    (chacha20_bit_stream ks0 1 1 (some 65) true).1 = RunResult.panicked ∧
      (chacha20_bit_stream ks0 4 4 (some 8) false).1 ≠ RunResult.panicked :=
  ⟨(chacha20_bit_stream_panic_iff_bpv_gt_64 ks0 1 1 (some 65) true).1
      (by decide) (by decide) (by decide),
    (chacha20_bit_stream_panic_iff_bpv_gt_64 ks0 4 4 (some 8) false).2
      (by decide) (by decide) (by decide)⟩

/-- C10: under the implicit precondition `1 ≤ bitsPerValue ≤ 64` the
generator never panics: the masking shift `1u64 << bitsPerValue` is only
evaluated when `bitsPerValue < numBytes * 8 ≤ 64`, the packing loop only
shifts by 8, and the bit-expansion shifts stay below 64, so every `none`
branch of the embedding is unreachable. -/
theorem chacha20_bit_stream_no_panic_in_range (ks : Nat → Nat) (fuel n_bits : Nat)
    (bpv? : Option Nat) (msb : Bool)
    (h1 : 1 ≤ bpv?.getD 32) (h64 : bpv?.getD 32 ≤ 64) (hfuel : n_bits ≤ fuel) :
    (chacha20_bit_stream ks fuel n_bits bpv? msb).1 ≠ RunResult.panicked := by
  by_cases h0 : n_bits = 0
  · simp [chacha20_bit_stream, h0]
  · have hrun := gen_loop_done_of_fuel ks (bpv?.getD 32) ((bpv?.getD 32 + 7) / 8) msb n_bits
      h1 h64 rfl fuel 0 (List.replicate ((bpv?.getD 32 + 7) / 8) 0) [] (by simpa using hfuel)
    rw [chacha20_bit_stream, if_neg h0]
    simp [hrun]

/-- Witness for C10's theorem at `nBits = 6`, `bitsPerValue = 3`. -/
theorem chacha20_bit_stream_no_panic_witness :
    (1 : Nat) ≤ (some 3 : Option Nat).getD 32 ∧ (some 3 : Option Nat).getD 32 ≤ 64 ∧
      (6 : Nat) ≤ 6 ∧ (chacha20_bit_stream ks0 6 6 (some 3) true).1 ≠ RunResult.panicked :=
  ⟨by decide, by decide, by decide,
    chacha20_bit_stream_no_panic_in_range ks0 6 6 (some 3) true
      (by decide) (by decide) (by decide)⟩

/-- C6: whenever two runs with the same keystream, `bitsPerValue` and
`msbFirst` both return normally, the sequence produced for `n` bits is a
prefix of the sequence produced for `n + k` bits — both are prefixes of
the same underlying chunk stream. -/
theorem chacha20_bit_stream_prefix_consistent (ks : Nat → Nat) (n k fuel₁ fuel₂ : Nat)
    (bpv? : Option Nat) (msb : Bool) (l₁ l₂ : List Nat) (t₁ t₂ : Elapsed)
    (hrun₁ : chacha20_bit_stream ks fuel₁ n bpv? msb = (RunResult.done l₁, t₁))
    (hrun₂ : chacha20_bit_stream ks fuel₂ (n + k) bpv? msb = (RunResult.done l₂, t₂)) :
    l₁ <+: l₂ := by
  by_cases h0 : n = 0
  · subst h0
    have h : (RunResult.done l₁, t₁) =
        ((RunResult.done ([] : List Nat) : RunResult), Elapsed.literalZero) := hrun₁.symm
    injection h with h1 h2
    injection h1 with h3
    rw [h3]
    exact List.nil_prefix
  · have hnk : n + k ≠ 0 := by omega
    rw [chacha20_bit_stream, if_neg h0] at hrun₁
    rw [chacha20_bit_stream, if_neg hnk] at hrun₂
    injection hrun₁ with hg₁ ht₁
    injection hrun₂ with hg₂ ht₂
    by_cases h64 : bpv?.getD 32 ≤ 64
    · obtain ⟨he₁, hlen₁⟩ := gen_loop_done_eq ks (bpv?.getD 32) ((bpv?.getD 32 + 7) / 8)
        msb n h64 rfl fuel₁ 0 (List.replicate ((bpv?.getD 32 + 7) / 8) 0) [] l₁ hg₁
      obtain ⟨he₂, hlen₂⟩ := gen_loop_done_eq ks (bpv?.getD 32) ((bpv?.getD 32 + 7) / 8)
        msb (n + k) h64 rfl fuel₂ 0 (List.replicate ((bpv?.getD 32 + 7) / 8) 0) [] l₂ hg₂
      simp only [List.nil_append, List.length_nil, Nat.sub_zero] at he₁ he₂
      have hsl₁ := chunk_stream_length ks (bpv?.getD 32) ((bpv?.getD 32 + 7) / 8) msb fuel₁ 0
        (List.replicate ((bpv?.getD 32 + 7) / 8) 0)
      have hsl₂ := chunk_stream_length ks (bpv?.getD 32) ((bpv?.getD 32 + 7) / 8) msb fuel₂ 0
        (List.replicate ((bpv?.getD 32 + 7) / 8) 0)
      by_cases hb0 : bpv?.getD 32 = 0
      · have hzero : l₁.length = 0 := by
          rw [he₁, List.length_take, hsl₁, hb0]
          omega
        omega
      · have hlt₁ : n ≤ fuel₁ * bpv?.getD 32 := by
          rw [he₁, List.length_take, hsl₁] at hlen₁
          omega
        have hlt₂ : n + k ≤ fuel₂ * bpv?.getD 32 := by
          rw [he₂, List.length_take, hsl₂] at hlen₂
          omega
        have hp₁ := chunk_stream_prefix ks (bpv?.getD 32) ((bpv?.getD 32 + 7) / 8) msb fuel₁
          (fuel₁ + fuel₂) 0 (List.replicate ((bpv?.getD 32 + 7) / 8) 0) (by omega)
        have hp₂ := chunk_stream_prefix ks (bpv?.getD 32) ((bpv?.getD 32 + 7) / 8) msb fuel₂
          (fuel₁ + fuel₂) 0 (List.replicate ((bpv?.getD 32 + 7) / 8) 0) (by omega)
        have he₁' : l₁ = List.take n (chunk_stream ks (bpv?.getD 32) ((bpv?.getD 32 + 7) / 8)
            msb (fuel₁ + fuel₂) 0 (List.replicate ((bpv?.getD 32 + 7) / 8) 0)) := by
          rw [he₁]
          exact prefix_take_eq _ _ n hp₁ (by rw [hsl₁]; omega)
        have he₂' : l₂ = List.take (n + k) (chunk_stream ks (bpv?.getD 32)
            ((bpv?.getD 32 + 7) / 8) msb (fuel₁ + fuel₂) 0
            (List.replicate ((bpv?.getD 32 + 7) / 8) 0)) := by
          rw [he₂]
          exact prefix_take_eq _ _ (n + k) hp₂ (by rw [hsl₂]; omega)
        rw [he₁', he₂']
        exact List.take_prefix_take_left _ (by omega)
    · exfalso
      cases fuel₁ with
      | zero =>
          rw [show gen_loop ks (bpv?.getD 32) ((bpv?.getD 32 + 7) / 8) msb n 0 0
              (List.replicate ((bpv?.getD 32 + 7) / 8) 0) [] =
              (if n ≤ (List.length ([] : List Nat)) then RunResult.done [] else RunResult.spin)
              from rfl, if_neg (by simp; omega)] at hg₁
          cases hg₁
      | succ f =>
          rw [gen_loop_panicked ks (bpv?.getD 32) ((bpv?.getD 32 + 7) / 8) msb n (by omega)
            rfl (f + 1) 0 (List.replicate ((bpv?.getD 32 + 7) / 8) 0) []
            (by simp; omega) (by omega)] at hg₁
          cases hg₁

/-- Witness for C6's theorem: with the zero keystream and
`bitsPerValue = 4`, the 3-bit output is a prefix of the 5-bit output. -/
theorem chacha20_bit_stream_prefix_witness :
    chacha20_bit_stream ks0 3 3 (some 4) true = (RunResult.done [0, 0, 0], Elapsed.measured) ∧
      chacha20_bit_stream ks0 5 5 (some 4) true =
        (RunResult.done [0, 0, 0, 0, 0], Elapsed.measured) ∧
      [0, 0, 0] <+: [0, 0, 0, 0, 0] :=
  ⟨by decide, by decide,
    chacha20_bit_stream_prefix_consistent ks0 3 2 3 5 (some 4) true [0, 0, 0] [0, 0, 0, 0, 0]
      Elapsed.measured Elapsed.measured (by decide) (by decide)⟩

